import Mathlib

/-!
Verification of the hhtsd hook-based HTTP server daemon against its
natural-language specification.  The definitions below are a shallow
embedding of the JavaScript sources:

* `ResponseCache` (with `retv`/`stor`), `LinkedList`-backed LRU and the
  `Queue` ring buffer from `src/collections.js` and the server module
  (`src/unnamed/part_000`);
* the hook name decoder, module loader and `HookExecutor` from the hook
  library (`src/unnamed/part_001`);
* the cache-insertion path of `ServerInstance.__handleHookResponse`
  (`src/unnamed/part_000`, lines 306-405).

JavaScript `Number` values that can be NaN are modelled by `JSNum`;
machine integers are modelled by `Int`/`Nat` (all bit operations in the
sources stay far below 2^31, where JavaScript's ToInt32 is the identity
on the embedded values).  JavaScript objects used as string-keyed maps
are modelled by association lists with unique keys (JS object properties
are unique), and the intrusive doubly-linked LRU list by a `List String`
of the node values, head first (each cache id owns exactly one node).
-/

/-- A JavaScript number that may be NaN.  Only integral values occur in
the embedded code paths.  `undefined` coerced to a number is NaN. -/
inductive JSNum where
  | nan
  | num (n : Int)
deriving Repr, DecidableEq

/-- JS `<` on numbers: any comparison with NaN is false. -/
def jsLt : JSNum → JSNum → Bool
  | .num a, .num b => a < b
  | _, _ => false

/-- JS `<=` on numbers: any comparison with NaN is false. -/
def jsLe : JSNum → JSNum → Bool
  | .num a, .num b => a ≤ b
  | _, _ => false

/-- JS `+` on numbers: NaN is absorbing. -/
def jsAdd : JSNum → JSNum → JSNum
  | .num a, .num b => .num (a + b)
  | _, _ => .nan

/-- JS `-` on numbers: NaN is absorbing. -/
def jsSub : JSNum → JSNum → JSNum
  | .num a, .num b => .num (a - b)
  | _, _ => .nan

/-- JS `*` on numbers: NaN is absorbing. -/
def jsMul : JSNum → JSNum → JSNum
  | .num a, .num b => .num (a * b)
  | _, _ => .nan

/-! ### Association-list helpers for JS objects used as maps

JS object property access, assignment of an existing property, `delete`
and the `in` test.  Since JS object keys are unique, the first binding is
the binding. -/

/-- Property read `m[k]`: `undefined` (`none`) when absent. -/
def lookupA {β : Type} : List (String × β) → String → Option β
  | [], _ => none
  | (k, v) :: t, id => if k = id then some v else lookupA t id

/-- Assignment `m[k] = v` for a key already present. -/
def replaceA {β : Type} : List (String × β) → String → β → List (String × β)
  | [], _, _ => []
  | (k, v) :: t, id, nv => if k = id then (k, nv) :: t else (k, v) :: replaceA t id nv

/-- Property removal `delete m[k]`. -/
def eraseA {β : Type} : List (String × β) → String → List (String × β)
  | [], _ => []
  | (k, v) :: t, id => if k = id then t else (k, v) :: eraseA t id

/-! ### ResponseCache (src/unnamed/part_000, lines 544-625)

`ResponseCacheItem` carries the cached descriptor, its size, its id and
an absolute expiry timestamp.  The `expire` field is a `JSNum` because
`__handleHookResponse` can store `Date.now() + maxAge * 1000` with a
non-numeric `maxAge`, which yields NaN. -/

structure CacheItem (α : Type) where
  data : α
  size : Int
  id : String
  expire : JSNum
deriving Repr, DecidableEq

structure ResponseCache (α : Type) where
  /-- `this.size`: the recorded total size. -/
  size : Int
  /-- `this.sizeLimit`. -/
  sizeLimit : Int
  /-- `this._map`: id → item. -/
  map : List (String × CacheItem α)
  /-- `this._lru`: the linked-list node values, head (MRU) first.
  `LinkedList.insert` prepends, `tail()` is the last node. -/
  lru : List String
deriving Repr, DecidableEq

/-- `new ResponseCache(limit)`. -/
def ResponseCache.init (α : Type) (limit : Int) : ResponseCache α :=
  { size := 0, sizeLimit := limit, map := [], lru := [] }

/-- `ResponseCache.retv(id)` at current time `now` (`Date.now()`):
returns the retrieved descriptor (or `none`) together with the updated
cache.  An expired hit is purged (`size -= x.size`, `delete`, unlink);
a live hit is unlinked and relinked at the head (MRU). -/
def ResponseCache.retv {α : Type} (c : ResponseCache α) (id : String) (now : Int) :
    Option α × ResponseCache α :=
  match lookupA c.map id with
  | none => (none, c)
  | some x =>
    if jsLt x.expire (JSNum.num now) then
      (none, { c with size := c.size - x.size
                      map := eraseA c.map id
                      lru := c.lru.erase id })
    else
      (some x.data, { c with lru := id :: c.lru.erase id })

/-- The update-or-insert part of `ResponseCache.stor(id, data, size,
expires)`, before the eviction loop.  On an existing key the descriptor,
size and expiry are overwritten and `this.size` adjusted; the LRU node
of the entry is not touched.  On a fresh key a node is prepended at the
head. -/
def ResponseCache.storNoEvict {α : Type} (c : ResponseCache α) (id : String) (data : α)
    (size : Int) (expires : JSNum) : ResponseCache α :=
  match lookupA c.map id with
  | some x =>
    { c with size := c.size + (size - x.size)
             map := replaceA c.map id { x with data := data, size := size, expire := expires } }
  | none =>
    { c with size := c.size + size
             map := (id, { data := data, size := size, id := id, expire := expires }) :: c.map
             lru := id :: c.lru }

/-- One pass of the `while (this.size > this.sizeLimit)` eviction loop,
driven by explicit fuel.  Each iteration reads `this._lru.tail()` (the
last node), subtracts the entry's size and deletes it when the map still
has it, and unlinks the node; the loop breaks when the list is empty.
Every iteration shortens the LRU list by one, so running the loop with
fuel `c.lru.length` computes exactly the JavaScript loop's fixpoint:
when the fuel is exhausted the list is empty and the loop would break. -/
def evictFuel {α : Type} : Nat → ResponseCache α → ResponseCache α
  | 0, c => c
  | fuel + 1, c =>
    if c.sizeLimit < c.size then
      match c.lru.getLast? with
      | none => c
      | some i =>
        let c1 := match lookupA c.map i with
          | some x => { c with size := c.size - x.size, map := eraseA c.map i }
          | none => c
        evictFuel fuel { c1 with lru := c1.lru.dropLast }
    else c

/-- The eviction loop of `stor`. -/
def evictLoop {α : Type} (c : ResponseCache α) : ResponseCache α :=
  evictFuel c.lru.length c

/-- `ResponseCache.stor(id, data, size, expires)`: update or insert,
then, when `this.sizeLimit > 0`, evict from the LRU tail until the
recorded size is within the limit. -/
def ResponseCache.stor {α : Type} (c : ResponseCache α) (id : String) (data : α)
    (size : Int) (expires : JSNum) : ResponseCache α :=
  let c1 := c.storNoEvict id data size expires
  if 0 < c1.sizeLimit then evictLoop c1 else c1

/-- Sum of the per-entry `size` fields of the map. -/
def sumSizes {α : Type} (m : List (String × CacheItem α)) : Int :=
  (m.map (fun p => p.2.size)).sum

/-- An entry with its expiry timestamp replaced. -/
def expireItem {α : Type} (f : String → JSNum) (k : String) (y : CacheItem α) : CacheItem α :=
  { y with expire := f k }

/-- Reassign every entry's expiry timestamp (keyed by id).  Used to state
that eviction never looks at expiry: `evictLoop` commutes with any such
reassignment. -/
def mapExpire {α : Type} (f : String → JSNum) (c : ResponseCache α) : ResponseCache α :=
  { c with map := c.map.map (fun p => (p.1, expireItem f p.1 p.2)) }

/-- Well-formedness of a cache state: the recorded size is the sum of the
entry sizes, entry sizes are non-negative, the LRU node values and the
map keys are duplicate-free, and an id has a map entry exactly when it
has an LRU node. -/
structure CacheWF {α : Type} (c : ResponseCache α) : Prop where
  sizeEq : c.size = sumSizes c.map
  sizesNonneg : ∀ p ∈ c.map, 0 ≤ p.2.size
  lruNodup : c.lru.Nodup
  keysNodup : (c.map.map Prod.fst).Nodup
  memIff : ∀ k : String, (lookupA c.map k).isSome ↔ k ∈ c.lru

/-- The cache states reachable from a fresh `ResponseCache` with size
limit `limit` by any sequence of `stor` (with a non-negative size
argument, as at the call site, where the size is a byte length) and
`retv` operations. -/
inductive Reachable {α : Type} (limit : Int) : ResponseCache α → Prop where
  | init : Reachable limit (ResponseCache.init α limit)
  | stor {c : ResponseCache α} (id : String) (data : α) {size : Int} (expires : JSNum) :
      Reachable limit c → 0 ≤ size → Reachable limit (c.stor id data size expires)
  | retv {c : ResponseCache α} (id : String) (now : Int) :
      Reachable limit c → Reachable limit (c.retv id now).2

/-! ### Queue (src/collections.js, lines 20-90)

The ring-buffer queue.  The `length` getter computes
`this._tail - this.head`, but the object has no `head` property (the
data field is `_head`), so `this.head` is `undefined`, the subtraction
yields NaN and the getter returns NaN; consequently the
`length - capacity <= 0` test in `add` is always false and `__extend`
is never invoked. -/

structure Queue (α : Type) where
  capacity : Nat
  /-- `this._buffer`: a JS array read as index → value (`none` for an
  unassigned slot). -/
  buffer : Nat → Option α
  /-- `this._head`: first used index. -/
  head : Nat
  /-- `this._tail`: next free index. -/
  tail : Nat

/-- `new Queue(size)`: a non-positive size falls back to 10. -/
def Queue.mk0 (α : Type) (size : Int) : Queue α :=
  let cap : Int := if size ≤ 0 then 10 else size
  { capacity := cap.toNat, buffer := fun _ => none, head := 0, tail := 0 }

/-- The `length` getter `__length`: `this._tail - this.head` where
`this.head` is `undefined` (the field is `_head`), so the value is NaN;
`if (value < 0)` is false on NaN and NaN is returned. -/
def Queue.lengthJS {α : Type} (q : Queue α) : JSNum :=
  let value := jsSub (JSNum.num q.tail) JSNum.nan
  if jsLt value (JSNum.num 0) then jsAdd value (JSNum.num q.capacity) else value

/-- `Queue.__extend`: doubles the capacity.  The
`this._buffer.copyWithin(this.capacity, 0, this._tail)` call targets the
index `capacity`, which is the array's length, so `copyWithin` copies
nothing; only `_tail` is shifted.  (Dead code: `add` never calls it, see
`Queue.lengthJS`.) -/
def Queue.extend {α : Type} (q : Queue α) : Queue α :=
  let nc := q.capacity * 2
  let q := if q.tail < q.head then { q with tail := q.tail + q.capacity } else q
  { q with capacity := nc }

/-- `Queue.add(item)`: `this.length - this.capacity <= 0` compares NaN,
so it is false and the buffer is never extended; the item is written at
`_tail`, which advances modulo the capacity. -/
def Queue.add {α : Type} (q : Queue α) (item : α) : Queue α :=
  let q := if jsLe (jsSub q.lengthJS (JSNum.num q.capacity)) (JSNum.num 0) then q.extend else q
  { q with buffer := fun j => if j = q.tail then some item else q.buffer j
           tail := (q.tail + 1) % q.capacity }

/-- `Queue.fetch()`: `undefined` when `_head == _tail`, else the item at
`_head`, which advances modulo the capacity. -/
def Queue.fetch {α : Type} (q : Queue α) : Option α × Queue α :=
  if q.head ≠ q.tail then
    (q.buffer q.head, { q with head := (q.head + 1) % q.capacity })
  else (none, q)

/-! ### Hook function names (src/unnamed/part_001, lines 95-138)

`HOOK_FUNC_REGEX_V2 = /h([ASEase])([A-Za-z]+)?_(.*)/` is not anchored:
`exec` finds the leftmost position where the pattern matches.  At a
given position the pattern needs a literal `h`, one policy character,
an optional non-empty run of ASCII letters, a literal `_` and then the
tail `(.*)` (possibly empty).  Since `_` is not a letter, the greedy
optional letter group can never give characters back, so the categories
group is exactly the maximal letter run after the policy character, and
the position matches exactly when the character after that run is `_`.
Without the `s` flag, `.` matches every character EXCEPT the
LineTerminator code points LF, CR, U+2028 and U+2029, and a regex match
need not consume the whole input, so the hook-name group is the run of
non-line-terminator characters after the `_` — the remainder up to (not
including) the first line terminator. -/

/-- Execution policy: `m[1].toUpperCase()` mapped by
`m[1] == "S" ? 0 : (m[1] == "E" ? 1 : 2)`. -/
inductive ExecPolicy where
  | sync
  | event
  | async
deriving Repr, DecidableEq

/-- The character class `[ASEase]`. -/
def isPolicyChar (c : Char) : Bool :=
  c = 'A' ∨ c = 'S' ∨ c = 'E' ∨ c = 'a' ∨ c = 's' ∨ c = 'e'

def policyOf (c : Char) : ExecPolicy :=
  let u := c.toUpper
  if u = 'S' then .sync else if u = 'E' then .event else .async

/-- The character class `[A-Za-z]`. -/
def isAsciiLetter (c : Char) : Bool :=
  ('A' ≤ c ∧ c ≤ 'Z') ∨ ('a' ≤ c ∧ c ≤ 'z')

/-- The loop body of `decodeCategory` on an upper-cased string: for each
character between `A` and `Z`, set bit `c - 65`. -/
def decodeCategoryNat (letters : List Char) : Nat :=
  letters.foldl
    (fun cat c =>
      let u := c.toUpper
      if 'A' ≤ u ∧ u ≤ 'Z' then cat ||| (1 <<< (u.toNat - 65)) else cat)
    0

/-- `decodeCategory(m[2])`: the categories group is either absent
(`undefined`, not a string, giving `-1 | 0`) or a non-empty run of
letters, decoded to a bit mask. -/
def catOfGroup (g : Option (List Char)) : Int :=
  match g with
  | none => -1
  | some letters => Int.ofNat (decodeCategoryNat letters)

/-- The decoded (policy, category mask, hook name) of a function name. -/
structure NameRec where
  policy : ExecPolicy
  cat : Int
  name : String
deriving Repr, DecidableEq

/-- The ECMAScript LineTerminator code points, which `.` does not match
without the `s` flag: LF, CR, U+2028 (LINE SEPARATOR) and U+2029
(PARAGRAPH SEPARATOR). -/
def isLineTerminator (c : Char) : Bool :=
  c = '\n' ∨ c = '\r' ∨ c.toNat = 0x2028 ∨ c.toNat = 0x2029

/-- Match `HOOK_FUNC_REGEX_V2` at one position: `h`, a policy character,
the maximal letter run (the optional group, absent when empty), `_`,
and then the greedy `(.*)` as the hook name — the run of characters
after the underscore up to (not including) the first line terminator,
possibly empty; any remainder past a line terminator is simply left
unconsumed by the match. -/
def matchAt : List Char → Option NameRec
  | 'h' :: p :: rest =>
    if isPolicyChar p then
      let cats := rest.takeWhile isAsciiLetter
      match rest.dropWhile isAsciiLetter with
      | '_' :: nm =>
        some { policy := policyOf p
               cat := catOfGroup (if cats.isEmpty then none else some cats)
               name := String.mk (nm.takeWhile (fun c => !isLineTerminator c)) }
      | _ => none
    else none
  | _ => none

/-- Leftmost match: try each start position left to right. -/
def findMatch : List Char → Option NameRec
  | [] => none
  | c :: t =>
    match matchAt (c :: t) with
    | some r => some r
    | none => findMatch t

/-- `HOOK_FUNC_REGEX_V2.exec(name)` projected to the decoded record. -/
def decodeName (s : String) : Option NameRec :=
  findMatch s.data

/-- Modelled from the spec: the re-encoding of a decoded record, used
for the decode/re-encode round trip.  The source has no encoder; per
the naming grammar the policy letter is `S`/`A`/`E`, the category
letters are the letters of the set mask bits (none for the sentinel
`-1`), then `_` and the hook name. -/
def policyLetter : ExecPolicy → Char
  | .sync => 'S'
  | .async => 'A'
  | .event => 'E'

/-- The category alphabet, letter `i` at index `i`. -/
def alphabetChars : List Char :=
  ['A', 'B', 'C', 'D', 'E', 'F', 'G', 'H', 'I', 'J', 'K', 'L', 'M',
   'N', 'O', 'P', 'Q', 'R', 'S', 'T', 'U', 'V', 'W', 'X', 'Y', 'Z']

/-- Modelled from the spec: the category letters of a mask (ascending),
empty for the sentinel `-1`. -/
def maskLetters (cat : Int) : List Char :=
  if cat = -1 then []
  else alphabetChars.enum.filterMap
    (fun p => if cat.toNat.testBit p.1 then some p.2 else none)

/-- Modelled from the spec: re-encode a record into a function name
following the naming grammar `h <Policy> <Categories>? _ <HookName>`. -/
def encodeName (r : NameRec) : String :=
  "h" ++ String.mk [policyLetter r.policy] ++ String.mk (maskLetters r.cat) ++ "_" ++ r.name

/-! ### Module loading (src/unnamed/part_001, lines 345-373) -/

/-- One export of a hook module, as the loader sees it: its name,
whether it is a function, and the value of the function's own
`priority` property when that value is a number. -/
structure ModuleExport where
  name : String
  isFunction : Bool
  fnPriority : Option Int
deriving Repr, DecidableEq

/-- A hook module: the module-wide `priority` export when it is a
number, and the named exports. -/
structure JSModule where
  priority : Option Int
  exports : List ModuleExport
deriving Repr, DecidableEq

/-- The metadata record the loader attaches to a matching exported
function (`mod[i].src/.type/.cat/.priority/.execPolicy`). -/
structure HookRec where
  src : String
  type : String
  cat : Int
  priority : Int
  execPolicy : ExecPolicy
deriving Repr, DecidableEq

/-- One export's contribution in `__getHooksFromModule`: the name must
match `HOOK_FUNC_REGEX_V2` and the export must be a function.  The
guard `typeof mod[i] != "number"` tests the export itself — a function,
never a number — so it always holds and `mod[i].priority = prio`
unconditionally overwrites the function's own priority with the module
default `prio`. -/
def hookFromExport (sign : String) (prio : Int) (e : ModuleExport) : Option HookRec :=
  match decodeName e.name, e.isFunction with
  | some r, true =>
    some { src := sign, type := r.name, cat := r.cat, priority := prio,
           execPolicy := r.policy }
  | _, _ => none

/-- `HookLoader.__getHooksFromModule` for a module with basename `sign`:
`prio` is the module's exported `priority` when it is a number, else 0;
every matching exported function yields a `HookRec`. -/
def getHooksFromModule (sign : String) (m : JSModule) : List HookRec :=
  let prio := m.priority.getD 0
  m.exports.filterMap (hookFromExport sign prio)

/-! ### HookExecutor chain maintenance (src/unnamed/part_001, lines 140-173) -/

/-- JS `==` between `undefined` and a string: always false. -/
def jsUndefEqString (_ : String) : Bool := false

/-- `HookExecutor.setHook(hookfunc)`: find an entry with the same `src`
(the second conjunct of the predicate compares `hook.type` with itself,
`hook.type == hook.type`, so it is always true) and replace it, else
push; then sort ascending by priority. -/
def HookExecutor.setHook (hooks : List HookRec) (hookfunc : HookRec) : List HookRec :=
  let hs :=
    match hooks.findIdx? (fun hook => hook.src = hookfunc.src ∧ hook.type = hook.type) with
    | some i => hooks.set i hookfunc
    | none => hooks ++ [hookfunc]
  hs.mergeSort (fun a b => a.priority ≤ b.priority)

/-- `HookExecutor.delHooks(signature)`: the loop tests
`this.hooks.src == signature` — `this.hooks` is the array itself, whose
`src` property is `undefined`, so the test compares `undefined` with a
string and never holds; no element is ever removed. -/
def HookExecutor.delHooks (hooks : List HookRec) (signature : String) : List HookRec :=
  hooks.filter (fun _ => ¬ jsUndefEqString signature)

/-- Modelled from the spec: the removal `delHooks` was meant to perform
("first remove all functions that carry the reloaded module's
`source`"): drop every hook whose `src` equals the signature. -/
def delHooksIntended (hooks : List HookRec) (signature : String) : List HookRec :=
  hooks.filter (fun hook => hook.src ≠ signature)

/-! ### Category matching and chain invocation (src/unnamed/part_001,
lines 103-108 and 182-210) -/

/-- `inclusiveMatchFunc(cat, catMask) { return cat & catMask; }` —
returns a number, used for its truthiness. -/
def inclusiveMatchFunc (cat catMask : Int) : Int :=
  Int.land cat catMask

/-- `strictMatchFunc(cat, catMask) { return (cat ^ catMask) == 0; }`. -/
def strictMatchFunc (cat catMask : Int) : Bool :=
  Int.xor cat catMask = 0

/-- The two values `context._compareFunc` can hold. -/
inductive CompareFunc where
  | inclusive
  | strict
deriving Repr, DecidableEq

/-- Truthiness of `context._compareFunc(hook.cat, catMask)`: a number is
truthy when non-zero; `strictMatchFunc` already returns a boolean. -/
def evalCompare : CompareFunc → Int → Int → Bool
  | .inclusive, cat, catMask => inclusiveMatchFunc cat catMask ≠ 0
  | .strict, cat, catMask => strictMatchFunc cat catMask

/-- An opaque JS value as passed through hook chains: enough structure
to distinguish arrays (spreadable / array-like for `apply`) from
primitives. -/
inductive JSVal where
  | undef
  | str (s : String)
  | int (n : Int)
  | arr (elems : List JSVal)

/-- `Function.prototype.apply(thisArg, argsArray)`: an array yields its
elements, `undefined` yields no arguments, and a primitive such as a
string or a number raises `TypeError: CreateListFromArrayLike called on
non-object`. -/
def applyArgs : JSVal → Option (List JSVal)
  | .arr l => some l
  | .undef => some []
  | .str _ => none
  | .int _ => none

/-- A hook function in an executor chain: category mask, execution
policy and behaviour.  The behaviour is modelled as a pure function of
`context._lastResult` and the applied argument list. -/
structure ExecHook where
  cat : Int
  execPolicy : ExecPolicy
  fn : JSVal → List JSVal → JSVal

/-- Outcome of one entry into `HookExecutor.call`'s loop: the loop ran
to the end and the terminal callback is scheduled with `_lastResult`
(`done`); it stopped at an ASYNC hook after setting
`context._nextHook = i + 1` (`suspended`, recording `_lastResult` and
`_nextHook`); or `hook.apply` threw a TypeError because the `args`
parameter was not array-like (`typeError`). -/
inductive CallOutcome where
  | done (result : JSVal)
  | suspended (lastResult : JSVal) (nextHook : Nat)
  | typeError

/-- The `for (var i = context._nextHook; ...)` loop of
`HookExecutor.call`, walking the chain suffix `hooks.drop i` while
carrying the absolute index `i` (needed for `context._nextHook = i + 1`)
and `context._lastResult`.  `argsV` is the loop's `args` parameter — an
array on the first entry, but an arbitrary value after a continuation
resume (see `HookExecutor.resume`).  SYNC stores the hook's return value
in `_lastResult`; EVENT saves `_lastResult` and restores it after the
hook runs; ASYNC records the resume index and returns, suspended. -/
def callLoopAux (cmp : CompareFunc) (catMask : Int) (argsV : JSVal) :
    List ExecHook → Nat → JSVal → CallOutcome
  | [], _, lastResult => .done lastResult
  | hook :: rest, i, lastResult =>
    if evalCompare cmp hook.cat catMask then
      match applyArgs argsV with
      | none => .typeError
      | some argList =>
        match hook.execPolicy with
        | .sync => callLoopAux cmp catMask argsV rest (i + 1) (hook.fn lastResult argList)
        | .event =>
          let _ := hook.fn lastResult argList
          callLoopAux cmp catMask argsV rest (i + 1) lastResult
        | .async => .suspended lastResult (i + 1)
    else callLoopAux cmp catMask argsV rest (i + 1) lastResult

/-- `HookExecutor.call(catMask, cb, context, args)` entered on a fresh
context (`_nextHook = 0`, `_lastResult = undefined`), with `args` the
genuine argument array. -/
def HookExecutor.call (hooks : List ExecHook) (cmp : CompareFunc) (catMask : Int)
    (args : List JSVal) : CallOutcome :=
  callLoopAux cmp catMask (JSVal.arr args) hooks 0 JSVal.undef

/-- The continuation installed at an ASYNC hook:
`context.callback = (value) => { context._lastResult = value;
this.call(catMask, cb, context, ...args); }`.  The spread `...args`
passes the elements of the captured argument array as separate
parameters, so the re-entered `call`'s `args` parameter is the FIRST
element of the original argument array (`undefined` when it is empty),
not the array itself. -/
def HookExecutor.resume (hooks : List ExecHook) (cmp : CompareFunc) (catMask : Int)
    (capturedArgs : List JSVal) (nextHook : Nat) (value : JSVal) : CallOutcome :=
  callLoopAux cmp catMask (capturedArgs.headD JSVal.undef) (hooks.drop nextHook) nextHook value

/-- The hooks of one chain invocation that pass the match predicate,
projected to their masks — the inclusion test of `call`, `callSync` and
`dispatch` is `context._compareFunc(hook.cat, catMask)` on each chain
element in order. -/
def includedCats (hooks : List ExecHook) (cmp : CompareFunc) (catMask : Int) : List Int :=
  (hooks.filter (fun h => evalCompare cmp h.cat catMask)).map (fun h => h.cat)

/-! ### Response rendering and cache insertion
(src/unnamed/part_000, `ServerInstance.__handleHookResponse`, lines 306-405)

Only the state deciding the `this._cache.stor(...)` call is modelled:
header writes and the bytes sent on the response do not feed back into
the cacheable flag or the stored triple. -/

/-- A field that JS code tests with `typeof x == "number"`: a (finite
integral) number, NaN (also of type number), or a non-number value. -/
inductive JSNumField where
  | num (n : Int)
  | nan
  | notNum
deriving Repr, DecidableEq

/-- Coerce such a field into arithmetic, as in
`Date.now() + responseProto.maxAge * 1000`: a non-number (e.g.
`undefined`) multiplied by 1000 is NaN. -/
def fieldToJSNum : JSNumField → JSNum
  | .num n => .num n
  | .nan => .nan
  | .notNum => .nan

/-- The `data` field of a `ResponsePrototype` as `__handleHookResponse`
classifies it.  A Buffer/Uint8Array is kept as its byte length (`.length`,
which is all the insertion path reads); `other` covers values of any
further type, tagged with their truthiness. -/
inductive RData where
  | str (s : String)
  | bytes (len : Nat)
  | stream
  | null
  | undefined
  | other (truthy : Bool)
deriving Repr, DecidableEq

/-- JS truthiness of the `data` field (`if (responseProto.data ...)`):
the empty string is falsy; object values (Buffer, stream) are truthy. -/
def dataTruthy : RData → Bool
  | .str s => s ≠ ""
  | .bytes _ => true
  | .stream => true
  | .null => false
  | .undefined => false
  | .other t => t

/-- JS loose equality `responseProto.data == null`: true exactly for
`null` and `undefined`. -/
def dataLooseNull : RData → Bool
  | .null => true
  | .undefined => true
  | _ => false

/-- The fields of a `ResponsePrototype` that the insertion decision
reads. -/
structure RProto where
  /-- `responseProto.error instanceof Error`. -/
  error : Bool
  status : JSNumField
  data : RData
  /-- `some tag` when `typeof responseProto.entityTag == "string"`. -/
  entityTag : Option String
  maxAge : JSNumField
  /-- `some name` when `typeof responseProto.manual == "string"`. -/
  manual : Option String
deriving Repr, DecidableEq

/-- The `this._cache.stor(site.hosts[0] + "$" + request.url,
responseProto, responseProto.data.length, Date.now() +
responseProto.maxAge * 1000)` call `__handleHookResponse` performs, or
`none` when the descriptor is not inserted.  Mirrors the branch
structure: an `Error` in `error` → 500, no insert; a numeric status out
of `[100, 600)` (NaN included) → 500, no insert; a non-numeric status →
manual delegation or 500, no insert; a data field that is neither truthy
nor loosely `null` → body-less response, no insert.  Inside the data
branch `cacheable` starts true, is cleared when `entityTag` is not a
string, a string body is converted to a Buffer (UTF-8), and `cacheable`
is cleared again for a stream or a non-Buffer value; `maxAge` only
selects whether a `Cache-Control` header is written and is never part of
the cacheable test. -/
def renderStorCall (host0 url : String) (now : Int) (p : RProto) :
    Option (String × Int × JSNum) :=
  if p.error then none
  else
    match p.status with
    | .num n =>
      if 100 ≤ n ∧ n < 600 then
        if dataTruthy p.data ∨ dataLooseNull p.data then
          let cacheable := p.entityTag.isSome
          let dataAfter := match p.data with
            | .str s => RData.bytes s.utf8ByteSize
            | d => d
          match dataAfter with
          | .bytes len =>
            if cacheable then
              some (host0 ++ "$" ++ url, Int.ofNat len,
                jsAdd (JSNum.num now) (jsMul (fieldToJSNum p.maxAge) (JSNum.num 1000)))
            else none
          | _ => none
        else none
      else none
    | _ => none

/-- Amended insertion predicate, read off the source: no `error`, a
numeric status in `[100, 600)`, a body that is a non-empty string or a
Buffer, and a string `entityTag` — `maxAge` is not required. -/
def amendedStatusOk (p : RProto) : Bool :=
  match p.status with
  | .num n => 100 ≤ n ∧ n < 600
  | _ => false

def amendedBodyOk (p : RProto) : Bool :=
  match p.data with
  | .str s => s ≠ ""
  | .bytes _ => true
  | _ => false

def amendedCacheable (p : RProto) : Bool :=
  !p.error && amendedStatusOk p && amendedBodyOk p && p.entityTag.isSome

/-- The byte length the inserted entry records. -/
def amendedSize (p : RProto) : Int :=
  match p.data with
  | .str s => Int.ofNat s.utf8ByteSize
  | .bytes len => Int.ofNat len
  | _ => 0

/-- The expiry of the inserted entry: `now + maxAge * 1000`, NaN when
`maxAge` is not a (finite) number. -/
def amendedExpiry (now : Int) (p : RProto) : JSNum :=
  jsAdd (JSNum.num now) (jsMul (fieldToJSNum p.maxAge) (JSNum.num 1000))

/-! ### Association-list lemmas -/

theorem lookupA_isSome_iff_mem {β : Type} (m : List (String × β)) (k : String) :
    (lookupA m k).isSome ↔ k ∈ m.map Prod.fst := by
  induction m with
  | nil => simp [lookupA]
  | cons p t ih =>
    obtain ⟨k0, v0⟩ := p
    by_cases h : k0 = k <;> simp [lookupA, h, ih]
    exact fun h2 => (h h2.symm).elim

theorem lookupA_replaceA {β : Type} (m : List (String × β)) (id : String) (nv : β)
    (k : String) :
    lookupA (replaceA m id nv) k = if k = id then (lookupA m id).map (fun _ => nv)
      else lookupA m k := by
  induction m with
  | nil => simp [lookupA, replaceA]
  | cons p t ih =>
    obtain ⟨k0, v0⟩ := p
    by_cases h : k0 = id
    · subst h
      by_cases hk : k = k0
      · subst hk
        simp [lookupA, replaceA]
      · simp [lookupA, replaceA, hk, Ne.symm hk]
    · by_cases hk : k0 = k
      · have hk2 : ¬ k = id := fun hh => h (hk.trans hh)
        simp [lookupA, replaceA, h, hk, hk2]
      · simp [lookupA, replaceA, h, hk, Ne.symm hk, ih]

theorem keys_replaceA {β : Type} (m : List (String × β)) (id : String) (nv : β) :
    (replaceA m id nv).map Prod.fst = m.map Prod.fst := by
  induction m with
  | nil => rfl
  | cons p t ih =>
    obtain ⟨k0, v0⟩ := p
    by_cases h : k0 = id <;> simp [replaceA, h, ih]

theorem mem_replaceA {β : Type} (m : List (String × β)) (id : String) (nv : β)
    (p : String × β) (hp : p ∈ replaceA m id nv) : p ∈ m ∨ p.2 = nv := by
  induction m with
  | nil => simp [replaceA] at hp
  | cons q t ih =>
    obtain ⟨k0, v0⟩ := q
    by_cases h : k0 = id
    · simp [replaceA, h] at hp
      rcases hp with hp | hp
      · right; rw [hp]
      · left; exact List.mem_cons_of_mem _ hp
    · simp [replaceA, h] at hp
      rcases hp with hp | hp
      · left; simp [hp]
      · rcases ih hp with h2 | h2
        · left; exact List.mem_cons_of_mem _ h2
        · right; exact h2

theorem keys_eraseA {β : Type} (m : List (String × β)) (id : String) :
    (eraseA m id).map Prod.fst = (m.map Prod.fst).erase id := by
  induction m with
  | nil => rfl
  | cons p t ih =>
    obtain ⟨k0, v0⟩ := p
    by_cases h : k0 = id
    · simp [eraseA, h, List.erase_cons_head]
    · simp only [eraseA, if_neg h, List.map_cons, ih, List.erase_cons]
      simp [h]

theorem mem_eraseA {β : Type} (m : List (String × β)) (id : String)
    (p : String × β) (hp : p ∈ eraseA m id) : p ∈ m := by
  induction m with
  | nil => simp [eraseA] at hp
  | cons q t ih =>
    obtain ⟨k0, v0⟩ := q
    by_cases h : k0 = id
    · simp [eraseA, h] at hp
      exact List.mem_cons_of_mem _ hp
    · simp [eraseA, h] at hp
      rcases hp with hp | hp
      · simp [hp]
      · exact List.mem_cons_of_mem _ (ih hp)

theorem lookupA_eraseA {β : Type} (m : List (String × β)) (id : String)
    (hnd : (m.map Prod.fst).Nodup) (k : String) :
    lookupA (eraseA m id) k = if k = id then none else lookupA m k := by
  induction m with
  | nil => simp [lookupA, eraseA]
  | cons p t ih =>
    obtain ⟨k0, v0⟩ := p
    simp only [List.map_cons, List.nodup_cons] at hnd
    by_cases h : k0 = id
    · subst h
      by_cases hk : k = k0
      · subst hk
        simp [eraseA]
        rw [← Option.not_isSome_iff_eq_none, lookupA_isSome_iff_mem]
        exact hnd.1
      · simp [eraseA, lookupA, hk, Ne.symm hk]
    · by_cases hk : k0 = k
      · have hk2 : ¬ k = id := fun hh => h (hk.trans hh)
        simp [eraseA, h, lookupA, hk, hk2]
      · simp [eraseA, h, lookupA, hk, Ne.symm hk, ih hnd.2]

theorem sumSizes_cons {α : Type} (p : String × CacheItem α) (m : List (String × CacheItem α)) :
    sumSizes (p :: m) = p.2.size + sumSizes m := by
  simp [sumSizes]

theorem sumSizes_replaceA {α : Type} (m : List (String × CacheItem α)) (id : String)
    (x nv : CacheItem α) (hx : lookupA m id = some x) :
    sumSizes (replaceA m id nv) = sumSizes m - x.size + nv.size := by
  induction m with
  | nil => simp [lookupA] at hx
  | cons p t ih =>
    obtain ⟨k0, v0⟩ := p
    by_cases h : k0 = id
    · subst h
      simp [lookupA] at hx
      subst hx
      simp [replaceA, sumSizes_cons]
      ring
    · simp [lookupA, h] at hx
      simp [replaceA, h, sumSizes_cons, ih hx]
      ring

theorem sumSizes_eraseA {α : Type} (m : List (String × CacheItem α)) (id : String)
    (x : CacheItem α) (hx : lookupA m id = some x) :
    sumSizes (eraseA m id) = sumSizes m - x.size := by
  induction m with
  | nil => simp [lookupA] at hx
  | cons p t ih =>
    obtain ⟨k0, v0⟩ := p
    by_cases h : k0 = id
    · subst h
      simp [lookupA] at hx
      subst hx
      simp [eraseA, sumSizes_cons]
    · simp [lookupA, h] at hx
      simp [eraseA, h, sumSizes_cons, ih hx]
      ring

/-! ### Cache well-formedness machinery -/

theorem storNoEvict_sizeLimit {α : Type} (c : ResponseCache α) (id : String) (data : α)
    (size : Int) (expires : JSNum) :
    (c.storNoEvict id data size expires).sizeLimit = c.sizeLimit := by
  unfold ResponseCache.storNoEvict
  cases lookupA c.map id <;> rfl

theorem getLast?_decomp {β : Type} : ∀ (l : List β) (i : β),
    l.getLast? = some i → ∃ t, l = t ++ [i] := by
  intro l
  induction l with
  | nil => intro i h; simp at h
  | cons a t ih =>
    intro i h
    cases t with
    | nil =>
      simp [List.getLast?] at h
      exact ⟨[], by simp [h]⟩
    | cons b t2 =>
      have h2 : (b :: t2).getLast? = some i := by
        simpa [List.getLast?_cons_cons] using h
      obtain ⟨t3, ht3⟩ := ih i h2
      exact ⟨a :: t3, by simp [ht3]⟩

theorem map_nil_of_lru_nil {α : Type} {c : ResponseCache α} (hwf : CacheWF c)
    (h : c.lru = []) : c.map = [] := by
  cases hm : c.map with
  | nil => rfl
  | cons p t =>
    obtain ⟨k, v⟩ := p
    have hs : (lookupA c.map k).isSome := by simp [hm, lookupA]
    have := (hwf.memIff k).1 hs
    rw [h] at this
    simp at this

theorem wf_evict_step {α : Type} {c : ResponseCache α} (hwf : CacheWF c)
    {t : List String} {i : String} (hlru : c.lru = t ++ [i]) :
    ∃ x, lookupA c.map i = some x ∧
      CacheWF { size := c.size - x.size, sizeLimit := c.sizeLimit,
                map := eraseA c.map i, lru := t } := by
  have hmem : i ∈ c.lru := by simp [hlru]
  have hsome : (lookupA c.map i).isSome := (hwf.memIff i).2 hmem
  obtain ⟨x, hx⟩ := Option.isSome_iff_exists.mp hsome
  have hnd := hwf.lruNodup
  rw [hlru, List.nodup_append] at hnd
  have hnotmem : i ∉ t := fun hm => hnd.2.2 hm (by simp)
  refine ⟨x, hx, ?_⟩
  constructor
  · show c.size - x.size = sumSizes (eraseA c.map i)
    rw [hwf.sizeEq, sumSizes_eraseA c.map i x hx]
  · intro p hp
    exact hwf.sizesNonneg p (mem_eraseA c.map i p hp)
  · exact hnd.1
  · show ((eraseA c.map i).map Prod.fst).Nodup
    rw [keys_eraseA]
    exact hwf.keysNodup.erase i
  · intro k
    show (lookupA (eraseA c.map i) k).isSome ↔ k ∈ t
    rw [lookupA_eraseA c.map i hwf.keysNodup k]
    by_cases hk : k = i
    · subst hk
      simp [hnotmem]
    · simp only [if_neg hk]
      rw [hwf.memIff k, hlru]
      simp [hk]

theorem evictFuel_succ_stop {α : Type} (fuel : Nat) (c : ResponseCache α)
    (hle : ¬ c.sizeLimit < c.size) : evictFuel (fuel + 1) c = c := by
  simp only [evictFuel, if_neg hle]

theorem evictFuel_succ_nil {α : Type} (fuel : Nat) (c : ResponseCache α)
    (hnil : c.lru.getLast? = none) : evictFuel (fuel + 1) c = c := by
  simp only [evictFuel, hnil]
  split <;> rfl

theorem evictFuel_succ_some {α : Type} (fuel : Nat) (c : ResponseCache α)
    (hgt : c.sizeLimit < c.size) (i : String) (hi : c.lru.getLast? = some i)
    (x : CacheItem α) (hx : lookupA c.map i = some x) :
    evictFuel (fuel + 1) c =
      evictFuel fuel { size := c.size - x.size, sizeLimit := c.sizeLimit,
                       map := eraseA c.map i, lru := c.lru.dropLast } := by
  simp only [evictFuel, if_pos hgt, hi, hx]

theorem evictFuel_main {α : Type} : ∀ (fuel : Nat) (c : ResponseCache α), CacheWF c →
    CacheWF (evictFuel fuel c) ∧
    (evictFuel fuel c).sizeLimit = c.sizeLimit ∧
    (evictFuel fuel c).lru <+: c.lru ∧
    (c.lru.length ≤ fuel → 0 < c.sizeLimit → (evictFuel fuel c).size ≤ c.sizeLimit) := by
  intro fuel
  induction fuel with
  | zero =>
    intro c hwf
    refine ⟨hwf, rfl, List.prefix_rfl, ?_⟩
    intro hlen _
    have hnil : c.lru = [] := List.length_eq_zero.mp (Nat.le_zero.mp hlen)
    have hmap := map_nil_of_lru_nil hwf hnil
    simp [evictFuel, hwf.sizeEq, hmap, sumSizes]
    exact le_of_lt (by assumption)
  | succ fuel ih =>
    intro c hwf
    by_cases hgt : c.sizeLimit < c.size
    · cases hLast : c.lru.getLast? with
      | none =>
        rw [evictFuel_succ_nil fuel c hLast]
        refine ⟨hwf, rfl, List.prefix_rfl, ?_⟩
        intro _ hpos
        have hnil : c.lru = [] := by
          cases hl : c.lru with
          | nil => rfl
          | cons a t => rw [hl] at hLast; simp [List.getLast?_concat] at hLast
        have hmap := map_nil_of_lru_nil hwf hnil
        have h0 : c.size = 0 := by rw [hwf.sizeEq, hmap]; rfl
        rw [h0] at hgt
        exact absurd (lt_trans hgt hpos) (lt_irrefl _)
      | some i =>
        obtain ⟨t, hlru⟩ := getLast?_decomp c.lru i hLast
        obtain ⟨x, hx, hwf2⟩ := wf_evict_step hwf hlru
        have hdrop : c.lru.dropLast = t := by rw [hlru]; exact List.dropLast_concat
        have hstep := evictFuel_succ_some fuel c hgt i hLast x hx
        rw [hdrop] at hstep
        obtain ⟨ihwf, ihsl, ihpre, ihsize⟩ := ih _ hwf2
        rw [hstep]
        refine ⟨ihwf, ihsl, ?_, ?_⟩
        · refine ihpre.trans ?_
          rw [hlru]
          exact List.prefix_append t [i]
        · intro hlen hpos
          have hlent : t.length ≤ fuel := by
            have : c.lru.length = t.length + 1 := by rw [hlru]; simp
            omega
          have := ihsize hlent hpos
          simpa using this
    · rw [evictFuel_succ_stop fuel c hgt]
      exact ⟨hwf, rfl, List.prefix_rfl, fun _ _ => le_of_not_lt hgt⟩

theorem lookupA_mapPair {β : Type} (m : List (String × β)) (f : String → β → β)
    (k : String) :
    lookupA (m.map (fun p => (p.1, f p.1 p.2))) k = (lookupA m k).map (f k) := by
  induction m with
  | nil => simp [lookupA]
  | cons p t ih =>
    obtain ⟨k0, v0⟩ := p
    by_cases h : k0 = k
    · subst h
      simp [lookupA]
    · simp [lookupA, h, ih]

theorem eraseA_mapPair {β : Type} (m : List (String × β)) (f : String → β → β)
    (k : String) :
    eraseA (m.map (fun p => (p.1, f p.1 p.2))) k =
      (eraseA m k).map (fun p => (p.1, f p.1 p.2)) := by
  induction m with
  | nil => simp [eraseA]
  | cons p t ih =>
    obtain ⟨k0, v0⟩ := p
    by_cases h : k0 = k
    · simp [eraseA, h]
    · simp [eraseA, h, ih]

theorem mapExpire_size {α : Type} (f : String → JSNum) (c : ResponseCache α) :
    (mapExpire f c).size = c.size := rfl

theorem mapExpire_lru {α : Type} (f : String → JSNum) (c : ResponseCache α) :
    (mapExpire f c).lru = c.lru := rfl

theorem evictFuel_succ_noEntry {α : Type} (fuel : Nat) (c : ResponseCache α)
    (hgt : c.sizeLimit < c.size) (i : String) (hi : c.lru.getLast? = some i)
    (hx : lookupA c.map i = none) :
    evictFuel (fuel + 1) c = evictFuel fuel { c with lru := c.lru.dropLast } := by
  simp only [evictFuel, if_pos hgt, hi, hx]

theorem evictFuel_mapExpire {α : Type} : ∀ (fuel : Nat) (f : String → JSNum)
    (c : ResponseCache α),
    evictFuel fuel (mapExpire f c) = mapExpire f (evictFuel fuel c) := by
  intro fuel
  induction fuel with
  | zero => intro f c; rfl
  | succ fuel ih =>
    intro f c
    by_cases hgt : c.sizeLimit < c.size
    · cases hLast : c.lru.getLast? with
      | none =>
        rw [evictFuel_succ_nil fuel c hLast,
          evictFuel_succ_nil fuel (mapExpire f c) (by rw [mapExpire_lru]; exact hLast)]
      | some i =>
        have hLast2 : (mapExpire f c).lru.getLast? = some i := by
          rw [mapExpire_lru]; exact hLast
        cases hx : lookupA c.map i with
        | some x =>
          have hx2 : lookupA (mapExpire f c).map i = some (expireItem f i x) := by
            show lookupA (c.map.map (fun p => (p.1, expireItem f p.1 p.2))) i = _
            rw [lookupA_mapPair c.map (expireItem f) i, hx]
            rfl
          rw [evictFuel_succ_some fuel c hgt i hLast x hx,
            evictFuel_succ_some fuel (mapExpire f c) hgt i hLast2 _ hx2]
          have herase : eraseA (mapExpire f c).map i =
              (eraseA c.map i).map (fun p => (p.1, expireItem f p.1 p.2)) := by
            show eraseA (c.map.map (fun p => (p.1, expireItem f p.1 p.2))) i = _
            exact eraseA_mapPair c.map (expireItem f) i
          have hsz : (expireItem f i x).size = x.size := rfl
          rw [show (mapExpire f c).size = c.size from rfl,
            show (mapExpire f c).sizeLimit = c.sizeLimit from rfl,
            herase, mapExpire_lru, hsz]
          exact ih f { size := c.size - x.size, sizeLimit := c.sizeLimit,
                       map := eraseA c.map i, lru := c.lru.dropLast }
        | none =>
          have hx2 : lookupA (mapExpire f c).map i = none := by
            show lookupA (c.map.map (fun p => (p.1, expireItem f p.1 p.2))) i = none
            rw [lookupA_mapPair c.map (expireItem f) i, hx]
            rfl
          rw [evictFuel_succ_noEntry fuel c hgt i hLast hx,
            evictFuel_succ_noEntry fuel (mapExpire f c) hgt i hLast2 hx2]
          have : ({ mapExpire f c with lru := (mapExpire f c).lru.dropLast } : ResponseCache α) =
              mapExpire f { c with lru := c.lru.dropLast } := by
            simp [mapExpire]
          rw [this]
          exact ih f _
    · have hgt2 : ¬ (mapExpire f c).sizeLimit < (mapExpire f c).size := hgt
      rw [evictFuel_succ_stop fuel c hgt, evictFuel_succ_stop fuel (mapExpire f c) hgt2]

theorem wf_storNoEvict {α : Type} (c : ResponseCache α) (hwf : CacheWF c) (id : String)
    (data : α) (size : Int) (expires : JSNum) (hsz : 0 ≤ size) :
    CacheWF (c.storNoEvict id data size expires) := by
  unfold ResponseCache.storNoEvict
  cases hx : lookupA c.map id with
  | some x =>
    constructor
    · show c.size + (size - x.size) =
        sumSizes (replaceA c.map id { x with data := data, size := size, expire := expires })
      rw [hwf.sizeEq, sumSizes_replaceA c.map id x _ hx]
      ring
    · intro p hp
      rcases mem_replaceA c.map id _ p hp with h | h
      · exact hwf.sizesNonneg p h
      · rw [h]
        exact hsz
    · exact hwf.lruNodup
    · show ((replaceA c.map id _).map Prod.fst).Nodup
      rw [keys_replaceA]
      exact hwf.keysNodup
    · intro k
      show (lookupA (replaceA c.map id _) k).isSome ↔ k ∈ c.lru
      rw [lookupA_replaceA]
      by_cases hk : k = id
      · subst hk
        rw [if_pos rfl, hx]
        simp only [Option.map_some', Option.isSome_some, true_iff]
        exact (hwf.memIff k).1 (by rw [hx]; rfl)
      · rw [if_neg hk]
        exact hwf.memIff k
  | none =>
    have hnot : id ∉ c.lru := by
      intro hm
      have := (hwf.memIff id).2 hm
      rw [hx] at this
      simp at this
    have hnotk : id ∉ c.map.map Prod.fst := by
      intro hm
      have := (lookupA_isSome_iff_mem c.map id).2 hm
      rw [hx] at this
      simp at this
    constructor
    · show c.size + size = sumSizes ((id, _) :: c.map)
      rw [hwf.sizeEq, sumSizes_cons]
      ring
    · intro p hp
      rcases List.mem_cons.mp hp with h | h
      · rw [h]
        exact hsz
      · exact hwf.sizesNonneg p h
    · exact List.nodup_cons.mpr ⟨hnot, hwf.lruNodup⟩
    · exact List.nodup_cons.mpr ⟨hnotk, hwf.keysNodup⟩
    · intro k
      show (lookupA ((id, _) :: c.map) k).isSome ↔ k ∈ id :: c.lru
      by_cases hk : id = k
      · subst hk
        simp [lookupA]
      · simp only [lookupA, if_neg hk, List.mem_cons]
        rw [hwf.memIff k]
        have : ¬ k = id := fun h => hk h.symm
        simp [this]

theorem wf_retv {α : Type} (c : ResponseCache α) (hwf : CacheWF c) (id : String)
    (now : Int) : CacheWF (c.retv id now).2 ∧ (c.retv id now).2.sizeLimit = c.sizeLimit := by
  cases hx : lookupA c.map id with
  | none =>
    have hgoal : c.retv id now = (none, c) := by
      unfold ResponseCache.retv
      rw [hx]
    rw [hgoal]
    exact ⟨hwf, rfl⟩
  | some x =>
    have hgoal : c.retv id now =
        if jsLt x.expire (JSNum.num now) then
          (none, { c with size := c.size - x.size
                          map := eraseA c.map id
                          lru := c.lru.erase id })
        else (some x.data, { c with lru := id :: c.lru.erase id }) := by
      unfold ResponseCache.retv
      rw [hx]
    by_cases hexp : jsLt x.expire (JSNum.num now)
    · rw [hgoal, if_pos hexp]
      refine ⟨?_, rfl⟩
      constructor
      · show c.size - x.size = sumSizes (eraseA c.map id)
        rw [hwf.sizeEq, sumSizes_eraseA c.map id x hx]
      · intro p hp
        exact hwf.sizesNonneg p (mem_eraseA c.map id p hp)
      · exact hwf.lruNodup.erase id
      · show ((eraseA c.map id).map Prod.fst).Nodup
        rw [keys_eraseA]
        exact hwf.keysNodup.erase id
      · intro k
        show (lookupA (eraseA c.map id) k).isSome ↔ k ∈ c.lru.erase id
        rw [lookupA_eraseA c.map id hwf.keysNodup k,
          hwf.lruNodup.mem_erase_iff]
        by_cases hk : k = id
        · subst hk
          simp
        · simp only [if_neg hk, ne_eq, hk, not_false_iff, true_and]
          exact hwf.memIff k
    · rw [hgoal, if_neg hexp]
      refine ⟨?_, rfl⟩
      have hne : id ∉ c.lru.erase id := by
        rw [hwf.lruNodup.mem_erase_iff]
        simp
      constructor
      · exact hwf.sizeEq
      · exact hwf.sizesNonneg
      · exact List.nodup_cons.mpr ⟨hne, hwf.lruNodup.erase id⟩
      · exact hwf.keysNodup
      · intro k
        show (lookupA c.map k).isSome ↔ k ∈ id :: c.lru.erase id
        by_cases hk : k = id
        · subst hk
          simp only [List.mem_cons, true_or, iff_true]
          rw [hx]
          rfl
        · simp only [List.mem_cons, hk, false_or]
          rw [hwf.lruNodup.mem_erase_iff]
          simp only [ne_eq, hk, not_false_iff, true_and]
          exact hwf.memIff k

theorem wf_init {α : Type} (limit : Int) : CacheWF (ResponseCache.init α limit) := by
  constructor
  · rfl
  · intro p hp
    simp [ResponseCache.init] at hp
  · exact List.nodup_nil
  · exact List.nodup_nil
  · intro k
    simp [ResponseCache.init, lookupA]

theorem wf_stor {α : Type} (c : ResponseCache α) (hwf : CacheWF c) (id : String)
    (data : α) (size : Int) (expires : JSNum) (hsz : 0 ≤ size) :
    CacheWF (c.stor id data size expires) ∧
    (c.stor id data size expires).sizeLimit = c.sizeLimit := by
  have hw1 := wf_storNoEvict c hwf id data size expires hsz
  have hsl1 := storNoEvict_sizeLimit c id data size expires
  unfold ResponseCache.stor
  by_cases h0 : 0 < (c.storNoEvict id data size expires).sizeLimit
  · simp only [if_pos h0]
    obtain ⟨hw2, hsl2, _, _⟩ := evictFuel_main (c.storNoEvict id data size expires).lru.length
      (c.storNoEvict id data size expires) hw1
    exact ⟨hw2, by rw [show evictLoop (c.storNoEvict id data size expires) =
      evictFuel (c.storNoEvict id data size expires).lru.length
        (c.storNoEvict id data size expires) from rfl, hsl2, hsl1]⟩
  · simp only [if_neg h0]
    exact ⟨hw1, hsl1⟩

theorem reachable_wf {α : Type} (limit : Int) (c : ResponseCache α)
    (h : Reachable limit c) : CacheWF c ∧ c.sizeLimit = limit := by
  induction h with
  | init => exact ⟨wf_init limit, rfl⟩
  | stor id data expires hr hsz ih =>
    obtain ⟨hwf, hsl⟩ := ih
    obtain ⟨hw2, hsl2⟩ := wf_stor _ hwf id data _ expires hsz
    exact ⟨hw2, by rw [hsl2, hsl]⟩
  | retv id now hr ih =>
    obtain ⟨hwf, hsl⟩ := ih
    obtain ⟨hw2, hsl2⟩ := wf_retv _ hwf id now
    exact ⟨hw2, by rw [hsl2, hsl]⟩

/-- C1. For every sequence of `stor` and `retv` operations on a
`ResponseCache` whose `sizeLimit` is positive, after each `stor` the
recorded size equals the sum of the sizes of the stored entries and does
not exceed `sizeLimit`; the entries removed to restore the bound come
off the LRU tail (the surviving node list is a prefix of the
pre-eviction list, so the removed nodes are a suffix, least recently
used first), and eviction never looks at expiry times (the eviction
loop commutes with an arbitrary reassignment of every entry's expiry). -/
theorem hhtsd_c1_stor_lru_size_invariant {α : Type} (limit : Int) (c : ResponseCache α)
    (id : String) (data : α) (size : Int) (expires : JSNum) (f : String → JSNum)
    (hreach : Reachable limit c) (hlim : 0 < limit) (hsize : 0 ≤ size) :
    (c.stor id data size expires).size = sumSizes (c.stor id data size expires).map ∧
    (c.stor id data size expires).size ≤ limit ∧
    (c.stor id data size expires).lru <+: (c.storNoEvict id data size expires).lru ∧
    evictLoop (mapExpire f (c.storNoEvict id data size expires)) =
      mapExpire f (c.stor id data size expires) := by
  obtain ⟨hwf, hsl⟩ := reachable_wf limit c hreach
  have hw1 := wf_storNoEvict c hwf id data size expires hsize
  have hsl1 : (c.storNoEvict id data size expires).sizeLimit = limit := by
    rw [storNoEvict_sizeLimit, hsl]
  have hpos1 : 0 < (c.storNoEvict id data size expires).sizeLimit := by
    rw [hsl1]
    exact hlim
  have hstor : c.stor id data size expires =
      evictFuel (c.storNoEvict id data size expires).lru.length
        (c.storNoEvict id data size expires) := by
    unfold ResponseCache.stor
    rw [if_pos hpos1]
    rfl
  obtain ⟨hw2, hsl2, hpre, hsize2⟩ :=
    evictFuel_main (c.storNoEvict id data size expires).lru.length
      (c.storNoEvict id data size expires) hw1
  refine ⟨?_, ?_, ?_, ?_⟩
  · rw [hstor]
    exact hw2.sizeEq
  · rw [hstor, ← hsl1]
    exact hsize2 (le_refl _) hpos1
  · rw [hstor]
    exact hpre
  · rw [hstor]
    unfold evictLoop
    rw [show (mapExpire f (c.storNoEvict id data size expires)).lru =
      (c.storNoEvict id data size expires).lru from rfl]
    exact evictFuel_mapExpire _ f _

/-- Witness for C1 at a concrete input: the empty cache with limit 1000
and one `stor` of size 600. -/
theorem hhtsd_c1_witness :
    ((ResponseCache.init Nat 1000).stor "A" 0 600 (JSNum.num 10)).size =
      sumSizes ((ResponseCache.init Nat 1000).stor "A" 0 600 (JSNum.num 10)).map ∧
    ((ResponseCache.init Nat 1000).stor "A" 0 600 (JSNum.num 10)).size ≤ 1000 ∧
    ((ResponseCache.init Nat 1000).stor "A" 0 600 (JSNum.num 10)).lru <+:
      ((ResponseCache.init Nat 1000).storNoEvict "A" 0 600 (JSNum.num 10)).lru ∧
    evictLoop (mapExpire (fun _ => JSNum.num 0)
        ((ResponseCache.init Nat 1000).storNoEvict "A" 0 600 (JSNum.num 10))) =
      mapExpire (fun _ => JSNum.num 0)
        ((ResponseCache.init Nat 1000).stor "A" 0 600 (JSNum.num 10)) :=
  hhtsd_c1_stor_lru_size_invariant 1000 (ResponseCache.init Nat 1000) "A" 0 600
    (JSNum.num 10) (fun _ => JSNum.num 0) Reachable.init (by norm_num) (by norm_num)

theorem evictFuel_id {α : Type} (fuel : Nat) (c : ResponseCache α)
    (h : ¬ c.sizeLimit < c.size) : evictFuel fuel c = c := by
  cases fuel with
  | zero => rfl
  | succ fuel => exact evictFuel_succ_stop fuel c h

/-- C3 counterexample: store `A`, then `B` (the LRU list is now
`[B, A]`, `A` at the tail), then store `A` again while it is present.
The claim says the updated entry moves to the MRU head, so the list
should become `[A, B]`; the code leaves the node where it was and the
list stays `[B, A]`. -/
theorem hhtsd_c3_counterexample :
    ((((ResponseCache.init Nat 1000).stor "A" 7 1 (JSNum.num 10)).stor "B" 8 1
        (JSNum.num 10)).stor "A" 9 2 (JSNum.num 20)).lru = ["B", "A"] := by decide

/-- C3 amended: a `stor` on a key already present replaces the stored
descriptor, adjusts the recorded size by the difference of the entry
sizes and sets the new expiry, but the entry KEEPS its current LRU
position — it is not moved to the MRU head (only `retv` refreshes
recency).  Stated for an update that stays within the size limit, so
the eviction loop does not run. -/
theorem hhtsd_c3_amended {α : Type} (c : ResponseCache α) (id : String) (data : α)
    (size : Int) (expires : JSNum) (x : CacheItem α)
    (hx : lookupA c.map id = some x)
    (hfit : c.size + (size - x.size) ≤ c.sizeLimit) :
    (c.stor id data size expires).lru = c.lru ∧
    lookupA (c.stor id data size expires).map id =
      some { data := data, size := size, id := x.id, expire := expires } ∧
    (c.stor id data size expires).size = c.size + (size - x.size) ∧
    ∀ k, k ≠ id → lookupA (c.stor id data size expires).map k = lookupA c.map k := by
  have hne : c.storNoEvict id data size expires =
      { c with size := c.size + (size - x.size)
               map := replaceA c.map id { x with data := data, size := size, expire := expires } } := by
    unfold ResponseCache.storNoEvict
    rw [hx]
  have hnoev : c.stor id data size expires = c.storNoEvict id data size expires := by
    unfold ResponseCache.stor
    by_cases h0 : 0 < (c.storNoEvict id data size expires).sizeLimit
    · rw [if_pos h0]
      unfold evictLoop
      apply evictFuel_id
      rw [hne]
      simp only [not_lt]
      exact hfit
    · rw [if_neg h0]
  rw [hnoev, hne]
  refine ⟨rfl, ?_, rfl, ?_⟩
  · show lookupA (replaceA c.map id _) id = _
    rw [lookupA_replaceA, if_pos rfl, hx]
    rfl
  · intro k hk
    show lookupA (replaceA c.map id _) k = lookupA c.map k
    rw [lookupA_replaceA, if_neg hk]

/-- Witness for C3's amended theorem: update key `A` in a two-entry
cache; the LRU list stays `[B, A]` and only the map entry changes. -/
theorem hhtsd_c3_amended_witness :
    ((((ResponseCache.init Nat 1000).stor "A" 7 1 (JSNum.num 10)).stor "B" 8 1
        (JSNum.num 10)).stor "A" 9 2 (JSNum.num 20)).lru =
      (((ResponseCache.init Nat 1000).stor "A" 7 1 (JSNum.num 10)).stor "B" 8 1
        (JSNum.num 10)).lru ∧
    lookupA ((((ResponseCache.init Nat 1000).stor "A" 7 1 (JSNum.num 10)).stor "B" 8 1
        (JSNum.num 10)).stor "A" 9 2 (JSNum.num 20)).map "A" =
      some { data := 9, size := 2, id := "A", expire := JSNum.num 20 } ∧
    ((((ResponseCache.init Nat 1000).stor "A" 7 1 (JSNum.num 10)).stor "B" 8 1
        (JSNum.num 10)).stor "A" 9 2 (JSNum.num 20)).size =
      (((ResponseCache.init Nat 1000).stor "A" 7 1 (JSNum.num 10)).stor "B" 8 1
        (JSNum.num 10)).size + (2 - 1) ∧
    ∀ k, k ≠ "A" →
      lookupA ((((ResponseCache.init Nat 1000).stor "A" 7 1 (JSNum.num 10)).stor "B" 8 1
        (JSNum.num 10)).stor "A" 9 2 (JSNum.num 20)).map k =
      lookupA (((ResponseCache.init Nat 1000).stor "A" 7 1 (JSNum.num 10)).stor "B" 8 1
        (JSNum.num 10)).map k :=
  hhtsd_c3_amended _ "A" 9 2 (JSNum.num 20) { data := 7, size := 1, id := "A", expire := JSNum.num 10 }
    (by decide) (by decide)

/-- C9. `retv` on an entry whose expiry is strictly before the current
time removes it from the map and the LRU list, lowers the recorded size
by the entry's size and reports absent; `retv` of an absent key reports
absent and leaves the cache unchanged. -/
theorem hhtsd_c9_retv_expired_and_miss {α : Type} (c : ResponseCache α) (id : String)
    (x : CacheItem α) (now : Int) (id2 : String)
    (hknd : (c.map.map Prod.fst).Nodup) (hlnd : c.lru.Nodup)
    (hx : lookupA c.map id = some x) (hexp : jsLt x.expire (JSNum.num now) = true)
    (h2 : lookupA c.map id2 = none) :
    (c.retv id now).1 = none ∧
    (c.retv id now).2.size = c.size - x.size ∧
    lookupA (c.retv id now).2.map id = none ∧
    id ∉ (c.retv id now).2.lru ∧
    (∀ k, k ≠ id → lookupA (c.retv id now).2.map k = lookupA c.map k) ∧
    (∀ k, k ≠ id → (k ∈ (c.retv id now).2.lru ↔ k ∈ c.lru)) ∧
    c.retv id2 now = (none, c) := by
  have hgoal : c.retv id now =
      (none, { c with size := c.size - x.size
                      map := eraseA c.map id
                      lru := c.lru.erase id }) := by
    unfold ResponseCache.retv
    rw [hx]
    exact if_pos hexp
  have hmiss : c.retv id2 now = (none, c) := by
    unfold ResponseCache.retv
    rw [h2]
  rw [hgoal]
  refine ⟨rfl, rfl, ?_, ?_, ?_, ?_, hmiss⟩
  · show lookupA (eraseA c.map id) id = none
    rw [lookupA_eraseA c.map id hknd id, if_pos rfl]
  · show id ∉ c.lru.erase id
    rw [hlnd.mem_erase_iff]
    simp
  · intro k hk
    show lookupA (eraseA c.map id) k = lookupA c.map k
    rw [lookupA_eraseA c.map id hknd k, if_neg hk]
  · intro k hk
    show k ∈ c.lru.erase id ↔ k ∈ c.lru
    rw [hlnd.mem_erase_iff]
    simp [hk]

/-- Witness for C9: a one-entry cache whose entry expired at time 5,
read at time 10; the absent key `Z` is also probed. -/
theorem hhtsd_c9_witness :
    (((ResponseCache.init Nat 1000).stor "K" 7 50 (JSNum.num 5)).retv "K" 10).1 = none ∧
    (((ResponseCache.init Nat 1000).stor "K" 7 50 (JSNum.num 5)).retv "K" 10).2.size =
      ((ResponseCache.init Nat 1000).stor "K" 7 50 (JSNum.num 5)).size - 50 ∧
    lookupA (((ResponseCache.init Nat 1000).stor "K" 7 50 (JSNum.num 5)).retv "K" 10).2.map
      "K" = none ∧
    "K" ∉ (((ResponseCache.init Nat 1000).stor "K" 7 50 (JSNum.num 5)).retv "K" 10).2.lru ∧
    (∀ k, k ≠ "K" →
      lookupA (((ResponseCache.init Nat 1000).stor "K" 7 50 (JSNum.num 5)).retv "K"
        10).2.map k =
      lookupA ((ResponseCache.init Nat 1000).stor "K" 7 50 (JSNum.num 5)).map k) ∧
    (∀ k, k ≠ "K" →
      (k ∈ (((ResponseCache.init Nat 1000).stor "K" 7 50 (JSNum.num 5)).retv "K"
          10).2.lru ↔
        k ∈ ((ResponseCache.init Nat 1000).stor "K" 7 50 (JSNum.num 5)).lru)) ∧
    ((ResponseCache.init Nat 1000).stor "K" 7 50 (JSNum.num 5)).retv "Z" 10 =
      (none, (ResponseCache.init Nat 1000).stor "K" 7 50 (JSNum.num 5)) :=
  hhtsd_c9_retv_expired_and_miss ((ResponseCache.init Nat 1000).stor "K" 7 50 (JSNum.num 5))
    "K" { data := 7, size := 50, id := "K", expire := JSNum.num 5 } 10 "Z"
    (by decide) (by decide) (by decide) (by decide) (by decide)

/-- C2 counterexample.  First input: status 200, a 3-byte Buffer body, a
string `entityTag`, but a NON-numeric `maxAge` — the claim forbids the
insertion, yet the code inserts (with expiry `Date.now() + undefined *
1000`, i.e. NaN).  Second input: all claimed conditions hold with body
the empty string (a string), yet the code takes the "response contains
no data" branch and does not insert. -/
theorem hhtsd_c2_counterexample :
    renderStorCall "host" "/u" 1000
      { error := false, status := .num 200, data := .bytes 3, entityTag := some "x",
        maxAge := .notNum, manual := none } = some ("host$/u", 3, JSNum.nan) ∧
    renderStorCall "host" "/u" 1000
      { error := false, status := .num 200, data := .str "", entityTag := some "x",
        maxAge := .num 5, manual := none } = none := by
  constructor <;> rfl

/-- C2 amended.  A hook response descriptor is inserted into the cache
iff `error` is unset, the status is a number in `[100, 600)`, the body
is a non-empty string or a Buffer, and `entityTag` is a string —
`maxAge` is NOT part of the condition.  The inserted entry's key is
`site.hosts[0] ++ "$" ++ request.url`, its size is the byte length of
the body (UTF-8 for strings), and its expiry is `now + maxAge * 1000`
milliseconds, NaN when `maxAge` is not a number. -/
theorem hhtsd_c2_amended (host0 url : String) (now : Int) (p : RProto) :
    renderStorCall host0 url now p =
      if amendedCacheable p then
        some (host0 ++ "$" ++ url, amendedSize p, amendedExpiry now p)
      else none := by
  obtain ⟨err, st, d, et, ma, mn⟩ := p
  cases err
  · cases st with
    | num n =>
      by_cases hn : 100 ≤ n ∧ n < 600
      · cases d with
        | str s =>
          by_cases hs : s = ""
          · subst hs
            cases et <;>
              simp [renderStorCall, amendedCacheable, amendedStatusOk, amendedBodyOk,
                amendedSize, amendedExpiry, dataTruthy, dataLooseNull, hn]
          · cases et <;>
              simp [renderStorCall, amendedCacheable, amendedStatusOk, amendedBodyOk,
                amendedSize, amendedExpiry, dataTruthy, dataLooseNull, hn, hs]
        | bytes len =>
          cases et <;>
            simp [renderStorCall, amendedCacheable, amendedStatusOk, amendedBodyOk,
              amendedSize, amendedExpiry, dataTruthy, dataLooseNull, hn]
        | stream =>
          cases et <;>
            simp [renderStorCall, amendedCacheable, amendedStatusOk, amendedBodyOk,
              dataTruthy, dataLooseNull, hn]
        | null =>
          cases et <;>
            simp [renderStorCall, amendedCacheable, amendedStatusOk, amendedBodyOk,
              dataTruthy, dataLooseNull, hn]
        | undefined =>
          cases et <;>
            simp [renderStorCall, amendedCacheable, amendedStatusOk, amendedBodyOk,
              dataTruthy, dataLooseNull, hn]
        | other t =>
          cases t <;> cases et <;>
            simp [renderStorCall, amendedCacheable, amendedStatusOk, amendedBodyOk,
              dataTruthy, dataLooseNull, hn]
      · simp [renderStorCall, amendedCacheable, amendedStatusOk, hn]
    | nan => simp [renderStorCall, amendedCacheable, amendedStatusOk]
    | notNum => simp [renderStorCall, amendedCacheable, amendedStatusOk]
  · simp [renderStorCall, amendedCacheable]

/-! ### Lemmas on the JS 32-bit mask arithmetic (values are far below
2^31, where ToInt32 is the identity, so `Int` bit operations model the
JS operators exactly) -/

theorem ldiff_zero_nat (n : Nat) : Nat.ldiff n 0 = n := by
  simp [Nat.ldiff, Nat.bitwise]

theorem zero_ldiff_nat (n : Nat) : Nat.ldiff 0 n = 0 := by
  simp [Nat.ldiff, Nat.bitwise]

theorem land_neg_one (m : Int) : Int.land (-1) m = m := by
  cases m with
  | ofNat n =>
    show Int.land (Int.negSucc 0) (Int.ofNat n) = Int.ofNat n
    simp [Int.land, ldiff_zero_nat]
  | negSucc n =>
    show Int.land (Int.negSucc 0) (Int.negSucc n) = Int.negSucc n
    simp [Int.land]

theorem land_zero_int (m : Int) : Int.land m 0 = 0 := by
  cases m with
  | ofNat n =>
    show Int.land (Int.ofNat n) (Int.ofNat 0) = 0
    simp [Int.land]
  | negSucc n =>
    show Int.land (Int.negSucc n) (Int.ofNat 0) = 0
    simp [Int.land, zero_ldiff_nat]

theorem int_xor_eq_zero (a b : Int) : Int.xor a b = 0 ↔ a = b := by
  cases a with
  | ofNat m =>
    cases b with
    | ofNat n =>
      show (Int.ofNat (m ^^^ n) = 0) ↔ _
      constructor
      · intro h
        rw [Nat.xor_eq_zero.mp (Int.ofNat.inj h)]
      · intro h
        rw [Nat.xor_eq_zero.mpr (Int.ofNat.inj h)]
        rfl
    | negSucc n =>
      show (Int.negSucc (m ^^^ n) = 0) ↔ _
      simp [Int.negSucc_ne_zero]
  | negSucc m =>
    cases b with
    | ofNat n =>
      show (Int.negSucc (m ^^^ n) = 0) ↔ _
      simp [Int.negSucc_ne_zero]
    | negSucc n =>
      show (Int.ofNat (m ^^^ n) = 0) ↔ _
      constructor
      · intro h
        rw [Nat.xor_eq_zero.mp (Int.ofNat.inj h)]
      · intro h
        rw [Nat.xor_eq_zero.mpr (Int.negSucc.inj h)]
        rfl

/-- A hook body that returns `undefined`; the match predicates never
look at it. -/
def nullHookFn : JSVal → List JSVal → JSVal := fun _ _ => JSVal.undef

/-- The chain of the spec's matching example: functions with masks
`0b001`, `0b010`, `0b011` and the sentinel `ALL_CATS` (-1). -/
def c8Chain : List ExecHook :=
  [{ cat := 1, execPolicy := .sync, fn := nullHookFn },
   { cat := 2, execPolicy := .sync, fn := nullHookFn },
   { cat := 3, execPolicy := .sync, fn := nullHookFn },
   { cat := -1, execPolicy := .sync, fn := nullHookFn }]

/-- C8 counterexample: a chain whose one function is categoryless
(mask `ALL_CATS = -1`), invoked with request mask 0 in INCLUSIVE mode.
The claim says the sentinel matches every request; the code computes
`-1 & 0 = 0`, falsy, and selects nothing. -/
theorem hhtsd_c8_counterexample :
    includedCats [{ cat := -1, execPolicy := .sync, fn := nullHookFn }] .inclusive 0 = [] := by
  simp [includedCats, evalCompare, inclusiveMatchFunc, land_zero_int]

/-- C8 amended.  A chain function is included iff the match predicate
holds: in INCLUSIVE mode iff `function.mask & requested_mask` is
non-zero — the sentinel `ALL_CATS` (-1) therefore matches every request
whose mask is non-zero, and NO function matches a request with mask 0 —
and in STRICT mode iff the masks are exactly equal (`(a ^ b) == 0`).
On the spec's example chain with request mask `0b001`, inclusive
matching selects `{0b001, 0b011, ALL_CATS}` and strict matching selects
`{0b001}`. -/
theorem hhtsd_c8_amended (cat mask : Int) (hm : mask ≠ 0) :
    (evalCompare .inclusive cat mask = true ↔ Int.land cat mask ≠ 0) ∧
    evalCompare .inclusive (-1) mask = true ∧
    evalCompare .inclusive cat 0 = false ∧
    (evalCompare .strict cat mask = true ↔ cat = mask) ∧
    includedCats c8Chain .inclusive 1 = [1, 3, -1] ∧
    includedCats c8Chain .strict 1 = [1] := by
  refine ⟨?_, ?_, ?_, ?_, ?_, ?_⟩
  · simp [evalCompare, inclusiveMatchFunc]
  · simp [evalCompare, inclusiveMatchFunc, land_neg_one, hm]
  · simp [evalCompare, inclusiveMatchFunc, land_zero_int]
  · simp [evalCompare, strictMatchFunc, int_xor_eq_zero]
  · have h11 : Int.land 1 1 = 1 := by decide
    have h21 : Int.land 2 1 = 0 := by decide
    have h31 : Int.land 3 1 = 1 := by decide
    have hneg : Int.land (-1) 1 = 1 := land_neg_one 1
    simp [includedCats, c8Chain, evalCompare, inclusiveMatchFunc, h11, h21, h31, hneg]
  · simp [includedCats, c8Chain, evalCompare, strictMatchFunc, int_xor_eq_zero]

/-- Witness for C8 at `cat = 3`, `mask = 1`. -/
theorem hhtsd_c8_witness :
    (evalCompare .inclusive 3 1 = true ↔ Int.land 3 1 ≠ 0) ∧
    evalCompare .inclusive (-1) 1 = true ∧
    evalCompare .inclusive 3 0 = false ∧
    (evalCompare .strict 3 1 = true ↔ (3 : Int) = 1) ∧
    includedCats c8Chain .inclusive 1 = [1, 3, -1] ∧
    includedCats c8Chain .strict 1 = [1] :=
  hhtsd_c8_amended 3 1 (by norm_num)

/-! ### C4: the ASYNC continuation's `...args` spread -/

/-- An ASYNC hook (body irrelevant to the driver). -/
def c4AsyncHook : ExecHook := { cat := 1, execPolicy := .async, fn := nullHookFn }

/-- A SYNC hook that returns its argument array. -/
def c4SyncHook : ExecHook := { cat := 1, execPolicy := .sync, fn := fun _ args => JSVal.arr args }

/-- A SYNC hook returning 5 and an EVENT hook returning 9. -/
def c4SyncFive : ExecHook := { cat := 1, execPolicy := .sync, fn := fun _ _ => JSVal.int 5 }

def c4EventNine : ExecHook := { cat := 1, execPolicy := .event, fn := fun _ _ => JSVal.int 9 }

/-- C4 at the failing input.  A chain `[ASYNC f, SYNC g]` called with
the argument list `["x"]` suspends at `f` with resume index 1 (as the
claim says); but when `f`'s continuation is invoked with 7, the
`this.call(catMask, cb, context, ...args)` spread passes `"x"` — the
first element of the captured argument array — as the re-entered call's
`args` parameter, so `g.apply(context, "x")` raises a TypeError instead
of running `g` with the original argument list.  The third conjunct
shows the intact `lastResult` semantics on a chain without ASYNC: SYNC
replaces `lastResult` with its return value (5), EVENT runs but leaves
it unchanged. -/
theorem hhtsd_c4_resume_spread_bug :
    HookExecutor.call [c4AsyncHook, c4SyncHook] .inclusive 1 [JSVal.str "x"] =
      .suspended JSVal.undef 1 ∧
    HookExecutor.resume [c4AsyncHook, c4SyncHook] .inclusive 1 [JSVal.str "x"] 1
      (JSVal.int 7) = .typeError ∧
    HookExecutor.call [c4SyncFive, c4EventNine] .inclusive 1 [] = .done (JSVal.int 5) :=
  ⟨rfl, rfl, rfl⟩

/-! ### C5: `delHooks` never removes anything -/

def c5Hook : HookRec :=
  { src := "echo.hook.js", type := "foo", cat := -1, priority := 0, execPolicy := .sync }

/-- C5 at the failing input.  An executor chain holds one function with
source `echo.hook.js`; `delHooks("echo.hook.js")` — the removal a
module reload performs first — leaves the chain unchanged, because the
loop tests `this.hooks.src == signature` on the array itself
(`undefined`).  The removal the spec describes would leave the chain
empty (`delHooksIntended`). -/
theorem hhtsd_c5_delhooks_noop :
    HookExecutor.delHooks [c5Hook] "echo.hook.js" = [c5Hook] ∧
    delHooksIntended [c5Hook] "echo.hook.js" = [] :=
  ⟨rfl, rfl⟩

/-! ### C6: per-function priorities are clobbered -/

/-- The example hook module of the repository (`hS_foo.bar$` with its
own `priority = 5` and no module-wide priority export). -/
def echoModule : JSModule :=
  { priority := none,
    exports := [{ name := "hS_foo.bar$", isFunction := true, fnPriority := some 5 }] }

/-- C6 at the failing input.  The example module declares a
per-function priority 5 ("Get this function to execute last"); the
loader's guard `typeof mod[i] != "number"` tests the function itself,
so it always holds and the hook's priority is set to the module default
0, not the declared 5. -/
theorem hhtsd_c6_priority_clobbered :
    getHooksFromModule "echo.hook.js" echoModule =
      [{ src := "echo.hook.js", type := "foo.bar$", cat := -1, priority := 0,
         execPolicy := .sync }] ∧
    echoModule.exports.map (fun e => e.fnPriority) = [some 5] :=
  ⟨rfl, rfl⟩

/-! ### C10: the Queue drops items once the write index wraps -/

/-- C10 at the failing input.  `new Queue(2)` then `add(1); add(2)`:
the `length` getter reads the non-existent `this.head` property, so the
capacity check in `add` compares NaN and `__extend` never runs; after
two adds `_tail` wraps to `_head` and `fetch()` returns `undefined`
although both items are unfetched (claimed: `fetch` returns 1).  With a
single `add` the FIFO behaviour still works, as the second conjunct
shows. -/
theorem hhtsd_c10_queue_wrap_loses_items :
    ((((Queue.mk0 Nat 2).add 1).add 2).fetch).1 = none ∧
    (((Queue.mk0 Nat 2).add 1).fetch).1 = some 1 :=
  ⟨rfl, rfl⟩

/-! ### C7 machinery: the name grammar -/

/-- Whether a character contributes bit `i` in `decodeCategory`. -/
def catContrib (c : Char) (i : Nat) : Bool :=
  decide ('A' ≤ c.toUpper ∧ c.toUpper ≤ 'Z') && decide (c.toUpper.toNat - 65 = i)

theorem decodeCategoryNat_foldl_testBit :
    ∀ (cats : List Char) (acc i : Nat),
    ((cats.foldl
        (fun cat c =>
          let u := c.toUpper
          if 'A' ≤ u ∧ u ≤ 'Z' then cat ||| (1 <<< (u.toNat - 65)) else cat)
        acc).testBit i) =
      (acc.testBit i || cats.any (fun c => catContrib c i)) := by
  intro cats
  induction cats with
  | nil => intro acc i; simp
  | cons c t ih =>
    intro acc i
    rw [List.foldl_cons, List.any_cons, ih]
    by_cases hcond : 'A' ≤ c.toUpper ∧ c.toUpper ≤ 'Z'
    · have hstep : (let u := c.toUpper
          if 'A' ≤ u ∧ u ≤ 'Z' then acc ||| (1 <<< (u.toNat - 65)) else acc) =
          acc ||| (1 <<< (c.toUpper.toNat - 65)) := by
        show (if 'A' ≤ c.toUpper ∧ c.toUpper ≤ 'Z' then _ else _) = _
        rw [if_pos hcond]
      rw [hstep, Nat.testBit_lor, Nat.shiftLeft_eq, one_mul, Nat.testBit_two_pow]
      simp [catContrib, hcond, Bool.or_assoc]
    · have hstep : (let u := c.toUpper
          if 'A' ≤ u ∧ u ≤ 'Z' then acc ||| (1 <<< (u.toNat - 65)) else acc) = acc := by
        show (if 'A' ≤ c.toUpper ∧ c.toUpper ≤ 'Z' then _ else _) = _
        rw [if_neg hcond]
      rw [hstep]
      simp [catContrib, hcond]

theorem decodeCategoryNat_testBit (cats : List Char) (i : Nat) :
    (decodeCategoryNat cats).testBit i =
      cats.any (fun c => catContrib c i) := by
  have h := decodeCategoryNat_foldl_testBit cats 0 i
  rw [Nat.zero_testBit] at h
  simpa [decodeCategoryNat] using h

theorem takeWhile_append_stop {f : Char → Bool} :
    ∀ (l : List Char) (b : Char) (t : List Char),
    (∀ c ∈ l, f c = true) → f b = false →
    (l ++ b :: t).takeWhile f = l ∧ (l ++ b :: t).dropWhile f = b :: t := by
  intro l
  induction l with
  | nil =>
    intro b t _ hb
    constructor
    · simp [List.takeWhile_cons, hb]
    · simp [List.dropWhile_cons, hb]
  | cons a l ih =>
    intro b t hl hb
    have ha : f a = true := hl a (List.mem_cons_self a l)
    have hrest : ∀ c ∈ l, f c = true := fun c hc => hl c (List.mem_cons_of_mem a hc)
    obtain ⟨h1, h2⟩ := ih b t hrest hb
    constructor
    · simp [List.takeWhile_cons, ha, h1]
    · simp [List.dropWhile_cons, ha, h2]

/-- A function name of the naming grammar's shape:
`h <Policy> <Categories> _ <HookName>`. -/
def grammarName (p : Char) (cats : List Char) (nm : String) : String :=
  "h" ++ String.mk [p] ++ String.mk cats ++ "_" ++ nm

theorem grammarName_data (p : Char) (cats : List Char) (nm : String) :
    (grammarName p cats nm).data = 'h' :: p :: (cats ++ '_' :: nm.data) := by
  simp [grammarName, String.data_append]

theorem takeWhile_eq_self_of_all {f : Char → Bool} :
    ∀ (l : List Char), (∀ c ∈ l, f c = true) → l.takeWhile f = l := by
  intro l
  induction l with
  | nil => intro _; rfl
  | cons a l ih =>
    intro hl
    have ha : f a = true := hl a (List.mem_cons_self a l)
    have hrest : ∀ c ∈ l, f c = true := fun c hc => hl c (List.mem_cons_of_mem a hc)
    simp [List.takeWhile_cons, ha, ih hrest]

/-- Decoding a grammar-shaped name: the leftmost regex match is at
position 0; the categories group is the (possibly empty) letter run and
the hook name is the remainder after the underscore up to the first
line terminator (`.` does not match line terminators). -/
theorem decodeName_grammar (p : Char) (cats : List Char) (nm : String)
    (hp : isPolicyChar p = true) (hcats : ∀ c ∈ cats, isAsciiLetter c = true) :
    decodeName (grammarName p cats nm) =
      some { policy := policyOf p
             cat := catOfGroup (if cats.isEmpty then none else some cats)
             name := String.mk (nm.data.takeWhile (fun c => !isLineTerminator c)) } := by
  have hdata := grammarName_data p cats nm
  have hu : isAsciiLetter '_' = false := by decide
  obtain ⟨htake, hdrop⟩ := takeWhile_append_stop cats '_' nm.data hcats hu
  have hmatch : matchAt ('h' :: p :: (cats ++ '_' :: nm.data)) =
      some { policy := policyOf p
             cat := catOfGroup (if cats.isEmpty then none else some cats)
             name := String.mk (nm.data.takeWhile (fun c => !isLineTerminator c)) } := by
    have heq : matchAt ('h' :: p :: (cats ++ '_' :: nm.data)) =
        if isPolicyChar p then
          match (cats ++ '_' :: nm.data).dropWhile isAsciiLetter with
          | '_' :: nm2 =>
            some { policy := policyOf p
                   cat := catOfGroup
                     (if ((cats ++ '_' :: nm.data).takeWhile isAsciiLetter).isEmpty then none
                      else some ((cats ++ '_' :: nm.data).takeWhile isAsciiLetter))
                   name := String.mk (nm2.takeWhile (fun c => !isLineTerminator c)) }
          | _ => none
        else none := rfl
    rw [heq, if_pos hp, htake, hdrop]
    rfl
  unfold decodeName
  rw [hdata]
  have hfm : findMatch ('h' :: p :: (cats ++ '_' :: nm.data)) =
      match matchAt ('h' :: p :: (cats ++ '_' :: nm.data)) with
      | some r => some r
      | none => findMatch (p :: (cats ++ '_' :: nm.data)) := rfl
  rw [hfm, hmatch]

/-- On a hook name free of line terminators the decoded name is the
remainder after the underscore verbatim. -/
theorem decodeName_grammar_verbatim (p : Char) (cats : List Char) (nm : String)
    (hp : isPolicyChar p = true) (hcats : ∀ c ∈ cats, isAsciiLetter c = true)
    (hnm : ∀ c ∈ nm.data, isLineTerminator c = false) :
    decodeName (grammarName p cats nm) =
      some { policy := policyOf p
             cat := catOfGroup (if cats.isEmpty then none else some cats)
             name := nm } := by
  rw [decodeName_grammar p cats nm hp hcats]
  have hall : ∀ c ∈ nm.data, (fun c => !isLineTerminator c) c = true := by
    intro c hc
    simp [hnm c hc]
  rw [takeWhile_eq_self_of_all nm.data hall]

theorem alphabet_enum_facts : ∀ pr ∈ alphabetChars.enum,
    pr.2.toUpper = pr.2 ∧ ('A' ≤ pr.2 ∧ pr.2 ≤ 'Z') ∧ pr.2.toNat = 65 + pr.1 ∧
    isAsciiLetter pr.2 = true := by decide

theorem range26_eq_enum_fst : List.range 26 = alphabetChars.enum.map Prod.fst := by decide

theorem maskLetters_not_neg_one (cat : Int) (h : cat ≠ -1) :
    maskLetters cat = alphabetChars.enum.filterMap
      (fun p => if cat.toNat.testBit p.1 then some p.2 else none) := by
  unfold maskLetters
  rw [if_neg h]

theorem mem_maskLetters (cat : Int) (h : cat ≠ -1) (c : Char)
    (hc : c ∈ maskLetters cat) :
    ∃ pr ∈ alphabetChars.enum, cat.toNat.testBit pr.1 = true ∧ pr.2 = c := by
  rw [maskLetters_not_neg_one cat h] at hc
  obtain ⟨pr, hpr, hf⟩ := List.mem_filterMap.mp hc
  by_cases hb : cat.toNat.testBit pr.1
  · rw [if_pos hb] at hf
    exact ⟨pr, hpr, hb, Option.some.inj hf⟩
  · rw [if_neg hb] at hf
    cases hf

theorem maskLetters_letters (cat : Int) : ∀ c ∈ maskLetters cat,
    isAsciiLetter c = true := by
  intro c hc
  by_cases h : cat = -1
  · rw [h] at hc
    simp [maskLetters] at hc
  · obtain ⟨pr, hpr, _, hpc⟩ := mem_maskLetters cat h c hc
    rw [← hpc]
    exact (alphabet_enum_facts pr hpr).2.2.2

theorem decodeCategoryNat_maskLetters (cat : Int) (h1 : 0 < cat) (h2 : cat < 2 ^ 26) :
    decodeCategoryNat (maskLetters cat) = cat.toNat := by
  have hne : cat ≠ -1 := by omega
  apply Nat.eq_of_testBit_eq
  intro i
  rw [decodeCategoryNat_testBit]
  by_cases hbit : cat.toNat.testBit i
  · rw [hbit]
    rw [List.any_eq_true]
    have hi26 : i < 26 := by
      by_contra hge
      have hpow : (2 : Nat) ^ 26 ≤ 2 ^ i := Nat.pow_le_pow_right (by norm_num) (by omega)
      have hlt : cat.toNat < 2 ^ i := by
        have : cat.toNat < 2 ^ 26 := by omega
        omega
      rw [Nat.testBit_lt_two_pow hlt] at hbit
      cases hbit
    have hmem : i ∈ alphabetChars.enum.map Prod.fst := by
      rw [← range26_eq_enum_fst]
      exact List.mem_range.mpr hi26
    obtain ⟨pr, hpr, hfst⟩ := List.mem_map.mp hmem
    obtain ⟨hup, hbnd, htn, _⟩ := alphabet_enum_facts pr hpr
    refine ⟨pr.2, ?_, ?_⟩
    · rw [maskLetters_not_neg_one cat hne]
      exact List.mem_filterMap.mpr ⟨pr, hpr, by rw [hfst, if_pos hbit]⟩
    · simp only [catContrib, hup, htn, hfst, Bool.and_eq_true, decide_eq_true_eq]
      exact ⟨hbnd, by omega⟩
  · have hbf : cat.toNat.testBit i = false := by rwa [Bool.not_eq_true] at hbit
    rw [hbf, Bool.eq_false_iff]
    intro hany
    rw [Bool.not_eq_true] at hbit
    apply absurd hbf
    rw [Bool.not_eq_false]
    obtain ⟨c, hc, hcon⟩ := List.any_eq_true.mp hany
    obtain ⟨pr, hpr, hb, hpc⟩ := mem_maskLetters cat hne c hc
    obtain ⟨hup, _, htn, _⟩ := alphabet_enum_facts pr hpr
    simp only [catContrib, ← hpc, hup, htn, Bool.and_eq_true, decide_eq_true_eq] at hcon
    have : pr.1 = i := by omega
    rw [← this]
    exact hb

theorem maskLetters_ne_nil (cat : Int) (h1 : 0 < cat) (h2 : cat < 2 ^ 26) :
    (maskLetters cat).isEmpty = false := by
  have hne : cat ≠ -1 := by omega
  have hn0 : cat.toNat ≠ 0 := by omega
  have hbit : ∃ i, cat.toNat.testBit i = true := by
    by_contra hno
    push_neg at hno
    apply hn0
    apply Nat.eq_of_testBit_eq
    intro i
    rw [Nat.zero_testBit, Bool.eq_false_iff]
    exact hno i
  obtain ⟨i, hbit⟩ := hbit
  have hi26 : i < 26 := by
    by_contra hge
    have hpow : (2 : Nat) ^ 26 ≤ 2 ^ i := Nat.pow_le_pow_right (by norm_num) (by omega)
    have hlt : cat.toNat < 2 ^ i := by omega
    rw [Nat.testBit_lt_two_pow hlt] at hbit
    cases hbit
  have hmem : i ∈ alphabetChars.enum.map Prod.fst := by
    rw [← range26_eq_enum_fst]
    exact List.mem_range.mpr hi26
  obtain ⟨pr, hpr, hfst⟩ := List.mem_map.mp hmem
  have hm : pr.2 ∈ maskLetters cat := by
    rw [maskLetters_not_neg_one cat hne]
    exact List.mem_filterMap.mpr ⟨pr, hpr, by rw [hfst, if_pos hbit]⟩
  cases hml : maskLetters cat with
  | nil => rw [hml] at hm; cases hm
  | cons a t => rfl

theorem catOfGroup_maskLetters (cat : Int)
    (hv : cat = -1 ∨ (0 < cat ∧ cat < 2 ^ 26)) :
    catOfGroup (if (maskLetters cat).isEmpty then none else some (maskLetters cat)) =
      cat := by
  rcases hv with h | ⟨h1, h2⟩
  · subst h
    rfl
  · rw [maskLetters_ne_nil cat h1 h2]
    show catOfGroup (some (maskLetters cat)) = cat
    show Int.ofNat (decodeCategoryNat (maskLetters cat)) = cat
    rw [decodeCategoryNat_maskLetters cat h1 h2, Int.ofNat_eq_natCast,
      Int.toNat_of_nonneg h1.le]

theorem policyOf_policyLetter (pol : ExecPolicy) : policyOf (policyLetter pol) = pol := by
  cases pol <;> rfl

theorem isPolicyChar_policyLetter (pol : ExecPolicy) :
    isPolicyChar (policyLetter pol) = true := by
  cases pol <;> rfl

theorem encodeName_eq_grammarName (r : NameRec) :
    encodeName r = grammarName (policyLetter r.policy) (maskLetters r.cat) r.name := rfl

/-- C7 counterexample.  `"hS_"` decodes although the hook name is empty
(the claim requires a non-empty HookName), and `"xhS_foo"` decodes
although the whole name does not have the grammar's shape — the regex
is unanchored, so the leftmost embedded occurrence matches. -/
theorem hhtsd_c7_counterexample :
    decodeName "hS_" = some { policy := .sync, cat := -1, name := "" } ∧
    decodeName "xhS_foo" = some { policy := .sync, cat := -1, name := "foo" } :=
  ⟨rfl, rfl⟩

/-- C7 amended.  An exported callable becomes a hook function exactly
when `HOOK_FUNC_REGEX_V2` matches SOMEWHERE in its name (the regex is
unanchored and the hook name may be empty).  On a name of the grammar's
shape `h <Policy> <Categories>? _ <HookName>` the decoder returns the
mapped policy, the category mask — bit `i` set iff the case-insensitive
letter for category `i` appears in the categories run, `-1` (all
categories) when the run is absent — and as hook name the remainder
after the underscore up to the first line terminator (without the `s`
flag, `.` matches no line terminator), so the remainder verbatim
whenever it contains none.  Decoding a re-encoded record with a
line-terminator-free name returns the record unchanged. -/
theorem hhtsd_c7_amended (p : Char) (cats : List Char) (nm nmv : String) (i : Nat)
    (sign : String) (prio : Int) (e : ModuleExport) (r : NameRec)
    (hp : isPolicyChar p = true) (hcats : ∀ c ∈ cats, isAsciiLetter c = true)
    (hnmv : ∀ c ∈ nmv.data, isLineTerminator c = false)
    (hrname : ∀ c ∈ r.name.data, isLineTerminator c = false)
    (hr : r.cat = -1 ∨ (0 < r.cat ∧ r.cat < 2 ^ 26)) :
    decodeName (grammarName p cats nm) =
      some { policy := policyOf p
             cat := catOfGroup (if cats.isEmpty then none else some cats)
             name := String.mk (nm.data.takeWhile (fun c => !isLineTerminator c)) } ∧
    decodeName (grammarName p cats nmv) =
      some { policy := policyOf p
             cat := catOfGroup (if cats.isEmpty then none else some cats)
             name := nmv } ∧
    ((hookFromExport sign prio e).isSome ↔
      ((decodeName e.name).isSome ∧ e.isFunction = true)) ∧
    ((decodeCategoryNat cats).testBit i = true ↔
      ∃ c ∈ cats, ('A' ≤ c.toUpper ∧ c.toUpper ≤ 'Z') ∧ c.toUpper.toNat - 65 = i) ∧
    decodeName (encodeName r) = some r := by
  refine ⟨decodeName_grammar p cats nm hp hcats,
    decodeName_grammar_verbatim p cats nmv hp hcats hnmv, ?_, ?_, ?_⟩
  · cases hd : decodeName e.name <;> cases hf : e.isFunction <;>
      simp [hookFromExport, hd, hf]
  · rw [decodeCategoryNat_testBit, List.any_eq_true]
    simp [catContrib]
  · rw [encodeName_eq_grammarName,
      decodeName_grammar_verbatim _ _ _ (isPolicyChar_policyLetter r.policy)
        (maskLetters_letters r.cat) hrname,
      catOfGroup_maskLetters r.cat hr, policyOf_policyLetter]

/-- Witness for C7 at concrete inputs: grammar names built from policy
`S` and categories `AB` with the hook names `"a\nb"` (truncated at the
line feed) and `"foo"` (no line terminator, so verbatim), the export
`hE_bar`, and the record `(EVENT, 0b101, "x")`. -/
theorem hhtsd_c7_witness :
    decodeName (grammarName 'S' ['A', 'B'] "a\nb") =
      some { policy := policyOf 'S'
             cat := catOfGroup (if (['A', 'B'] : List Char).isEmpty then none
               else some ['A', 'B'])
             name := String.mk (("a\nb" : String).data.takeWhile
               (fun c => !isLineTerminator c)) } ∧
    decodeName (grammarName 'S' ['A', 'B'] "foo") =
      some { policy := policyOf 'S'
             cat := catOfGroup (if (['A', 'B'] : List Char).isEmpty then none
               else some ['A', 'B'])
             name := "foo" } ∧
    ((hookFromExport "m.hook.js" 0
        { name := "hE_bar", isFunction := true, fnPriority := none }).isSome ↔
      ((decodeName "hE_bar").isSome ∧
        ({ name := "hE_bar", isFunction := true,
           fnPriority := none } : ModuleExport).isFunction = true)) ∧
    ((decodeCategoryNat ['A', 'B']).testBit 0 = true ↔
      ∃ c ∈ (['A', 'B'] : List Char),
        ('A' ≤ c.toUpper ∧ c.toUpper ≤ 'Z') ∧ c.toUpper.toNat - 65 = 0) ∧
    decodeName (encodeName { policy := .event, cat := 5, name := "x" }) =
      some { policy := .event, cat := 5, name := "x" } :=
  hhtsd_c7_amended 'S' ['A', 'B'] "a\nb" "foo" 0 "m.hook.js" 0
    { name := "hE_bar", isFunction := true, fnPriority := none }
    { policy := .event, cat := 5, name := "x" }
    (by decide) (by decide) (by decide) (by decide) (by norm_num)
